import Mathlib

/-!
# Verification of the common-repeated-words service (`src/backend/server.py`)

Shallow embedding of the analysis core and of the request handler of the
repository `pdf_common_wordcnt`.  Text is modelled as `List Char` (Python
`str` is a sequence of characters); Python `dict`s built by comprehensions
are modelled as association lists whose keys appear in insertion order,
matching Python's ordered-dict semantics; `collections.Counter` is modelled
by `counter` below (first-occurrence key order, exact occurrence counts).

The regex character class `\w` (Unicode word character) is modelled as
"alphanumeric or underscore" and `\s` / `str.split()` whitespace as
`Char.isWhitespace`, the approximation the specification itself licenses
for non-ASCII input; every concrete input used below is ASCII, where the
model is exact.
-/

namespace Server

/-- A normalized word: a sequence of characters. -/
abbrev Word := List Char

/-- A word character in the sense of the regex class `\w`:
alphanumeric or underscore. -/
def isWordChar (c : Char) : Bool := c.isAlphanum || c == '_'

/-- Characters kept by `re.sub(r'[^\w\s]', '', ·)`:
word characters and whitespace survive, everything else is deleted. -/
def keepChar (c : Char) : Bool := isWordChar c || c.isWhitespace

/-- Helper for `splitWs`: accumulates the current (reversed) in-progress
word while scanning the character list. -/
def splitWsAux : List Char → List Char → List Word
  | [], [] => []
  | [], cur => [cur.reverse]
  | c :: cs, cur =>
    if c.isWhitespace then
      match cur with
      | [] => splitWsAux cs []
      | _ => cur.reverse :: splitWsAux cs []
    else splitWsAux cs (c :: cur)

/-- Python `str.split()` with no argument: split on runs of whitespace,
discarding empty tokens. -/
def splitWs (t : List Char) : List Word := splitWsAux t []

/-- Keep the first occurrence of every element, in order of first
occurrence (the key order of a Python `dict` / `Counter`). -/
def dedupFirst : List Word → List Word
  | [] => []
  | w :: ws => w :: (dedupFirst ws).filter (fun v => v != w)

/-- `collections.Counter(words).items()`: each distinct word, in
first-occurrence order, paired with its number of occurrences. -/
def counter (ws : List Word) : List (Word × Nat) :=
  (dedupFirst ws).map (fun w => (w, ws.count w))

/-- Embedding of `count_repeated_words` (server.py lines 32-38):
lowercase, strip characters outside `[\w\s]`, split on whitespace,
tally, and keep only entries with count `> 1`. -/
def count_repeated_words (text : List Char) : List (Word × Nat) :=
  (counter (splitWs ((text.map Char.toLower).filter keepChar))).filter
    (fun p => decide (1 < p.2))

/-- `d.get(w, 0)` on a Python dict modelled as an association list. -/
def dget (d : List (Word × Nat)) (w : Word) : Nat :=
  match d.find? (fun p => p.1 == w) with
  | some p => p.2
  | none => 0

/-- `w in d` on a Python dict modelled as an association list. -/
def dmem (d : List (Word × Nat)) (w : Word) : Bool :=
  d.any (fun p => p.1 == w)

/-- Embedding of `count_common_repeated_words` (server.py lines 41-45):
`{word: min(repeated1.get(word, 0), repeated2.get(word, 0))
  for word in repeated1 if word in repeated2}`. -/
def count_common_repeated_words (text1 text2 : List Char) : List (Word × Nat) :=
  ((count_repeated_words text1).filter
      (fun p => dmem (count_repeated_words text2) p.1)).map
    (fun p => (p.1, min (dget (count_repeated_words text1) p.1)
                        (dget (count_repeated_words text2) p.1)))

/-- The number of occurrences of word `w` among the tokens of `text`
after the code's normalization (lowercase, strip `[^\w\s]`, split). -/
def wordCount (text : List Char) (w : Word) : Nat :=
  (splitWs ((text.map Char.toLower).filter keepChar)).count w

/-- Python `str.split(sep)` for a single-character separator: always a
nonempty list of (possibly empty) segments. -/
def splitOnChar (sep : Char) : List Char → List (List Char)
  | [] => [[]]
  | c :: cs =>
    if c == sep then [] :: splitOnChar sep cs
    else
      match splitOnChar sep cs with
      | [] => [[c]]
      | w :: rest => (c :: w) :: rest

/-- `file_path.split('.')[-1].lower()` (server.py line 24): the segment
after the last dot (the whole name when there is no dot), lowercased. -/
def fileExt (path : List Char) : List Char :=
  ((splitOnChar '.' path).getLastD []).map Char.toLower

/-- The two kinds of exception `extract_text` can raise: the `ValueError`
for a non-pdf extension (carrying the offending extension), or a failure
of the underlying PDF reader (carrying its message). -/
inductive ExtractErr where
  | unsupported (ext : List Char)
  | parseFail (msg : List Char)
deriving DecidableEq

/-- `str(e)` for the exceptions above; the `unsupported` message is the
f-string of server.py line 26. -/
def errMsg : ExtractErr → List Char
  | .unsupported ext =>
      "Unsupported file type: ".data ++ ext ++ ". Only PDF files are supported.".data
  | .parseFail m => m

/-- Embedding of `extract_text` (server.py lines 23-29).  Reading and
parsing the PDF (`PdfReader` and page extraction) is external I/O; it is
abstracted as the parameter `readPdf`, which may itself fail.  The
function raises the unsupported-format `ValueError` exactly when the
lowercased extension is not `"pdf"`; otherwise it defers to `readPdf`. -/
def extract_text (readPdf : List Char → Except (List Char) (List Char))
    (path : List Char) : Except ExtractErr (List Char) :=
  if fileExt path = "pdf".data then
    match readPdf path with
    | .ok t => .ok t
    | .error m => .error (.parseFail m)
  else
    .error (.unsupported (fileExt path))

/-- `true` exactly on the unsupported-format `ValueError`. -/
def isUnsupportedError : Except ExtractErr (List Char) → Bool
  | .error (.unsupported _) => true
  | _ => false

/-- `UPLOAD_FOLDER` (server.py line 10). -/
def UPLOAD_FOLDER : List Char := "uploads".data

/-- `os.path.join(dir, name)` for a relative file name. -/
def pathJoin (dir name : List Char) : List Char := dir ++ '/' :: name

/-- The JSON body returned by the endpoint (server.py line 67):
`common_repeated_words` is either a word-count mapping (success) or an
error string (caught exception). -/
structure Response where
  filename1 : List Char
  filename2 : List Char
  common_repeated_words : List (Word × Nat) ⊕ List Char
deriving DecidableEq

/-- The `try/except` block of the endpoint (server.py lines 57-62):
extract both files in order; on the first exception, the result becomes
the string `"Error: " ++ str(e)`; otherwise it is the common-repeated
mapping. -/
def analysisResult (readPdf : List Char → Except (List Char) (List Char))
    (p1 p2 : List Char) : List (Word × Nat) ⊕ List Char :=
  match extract_text readPdf p1 with
  | .error e => .inr ("Error: ".data ++ errMsg e)
  | .ok t1 =>
    match extract_text readPdf p2 with
    | .error e => .inr ("Error: ".data ++ errMsg e)
    | .ok t2 => .inl (count_common_repeated_words t1 t2)

/-- Embedding of the endpoint `count_common_words` (server.py lines
49-67) over an abstract upload folder modelled as the finite set of file
paths it contains.  The handler writes the two uploads (`insert`), runs
the guarded analysis, then calls `os.remove` on each path in order.
`os.remove` on an absent path raises `FileNotFoundError`, which nothing
catches: that exit is modelled by a `none` response (the framework turns
the escaped exception into a 500), with the folder left as it was at the
raise.  The pair returned is (response if the handler returned normally,
final contents of the upload folder). -/
def count_common_words (readPdf : List Char → Except (List Char) (List Char))
    (name1 name2 : List Char) (fs : Finset (List Char)) :
    Option Response × Finset (List Char) :=
  let p1 := pathJoin UPLOAD_FOLDER name1
  let p2 := pathJoin UPLOAD_FOLDER name2
  let fs1 := insert p2 (insert p1 fs)
  let res := analysisResult readPdf p1 p2
  if p1 ∈ fs1 then
    let fs2 := fs1.erase p1
    if p2 ∈ fs2 then
      (some ⟨name1, name2, res⟩, fs2.erase p2)
    else
      (none, fs2)
  else
    (none, fs1)

/-- Modelled from the spec (section 4.1): lowercase the text, remove every
character that is not a word character (alphanumeric plus underscore) or
whitespace, split on runs of whitespace discarding empty tokens, tally
each distinct token, and keep only tokens with count ≥ 2. -/
def specRepeatedPipeline (t : List Char) : List (Word × Nat) :=
  (counter (splitWs ((t.map Char.toLower).filter
      (fun c => (c.isAlphanum || c == '_') || c.isWhitespace)))).filter
    (fun p => decide (2 ≤ p.2))

/-- The extension as the claim describes it: the substring after the last
dot (the whole name if there is no dot), lowercased. -/
def specExt (p : List Char) : List Char :=
  ((p.reverse.takeWhile (fun c => c != '.')).reverse).map Char.toLower

/-- A stub PDF reader that always succeeds with empty text, used for
concrete instantiations. -/
def okStub : List Char → Except (List Char) (List Char) := fun _ => Except.ok []

/-!
## Characterization lemmas

Membership and lookup characterizations of the two dictionaries the code
builds, in terms of the token occurrence count `wordCount`.
-/

lemma mem_dedupFirst {w : Word} : ∀ {ws : List Word}, w ∈ dedupFirst ws ↔ w ∈ ws := by
  intro ws
  induction ws with
  | nil => simp [dedupFirst]
  | cons v vs ih =>
    by_cases hwv : w = v <;>
      simp [dedupFirst, List.mem_filter, ih, bne_iff_ne, hwv]

lemma mem_counter {ws : List Word} {w : Word} {n : Nat} :
    (w, n) ∈ counter ws ↔ w ∈ ws ∧ n = ws.count w := by
  simp only [counter, List.mem_map, Prod.mk.injEq]
  constructor
  · rintro ⟨v, hv, rfl, rfl⟩
    exact ⟨mem_dedupFirst.mp hv, rfl⟩
  · rintro ⟨hw, rfl⟩
    exact ⟨w, mem_dedupFirst.mpr hw, rfl, rfl⟩

lemma mem_count_repeated_words {t : List Char} {w : Word} {n : Nat} :
    (w, n) ∈ count_repeated_words t ↔ 2 ≤ wordCount t w ∧ n = wordCount t w := by
  simp only [count_repeated_words, List.mem_filter, mem_counter, decide_eq_true_eq]
  constructor
  · rintro ⟨⟨hmem, rfl⟩, h2⟩
    exact ⟨h2, rfl⟩
  · rintro ⟨h2, rfl⟩
    refine ⟨⟨?_, rfl⟩, h2⟩
    have hpos : 0 < wordCount t w := lt_of_lt_of_le (by norm_num) h2
    exact List.count_pos_iff.mp hpos

lemma dmem_iff {d : List (Word × Nat)} {w : Word} :
    dmem d w = true ↔ ∃ p ∈ d, p.1 = w := by
  simp [dmem, List.any_eq_true]

lemma dget_eq_of_mem {d : List (Word × Nat)} {w : Word} {v : Nat}
    (hmem : (w, v) ∈ d) (huniq : ∀ p ∈ d, p.1 = w → p.2 = v) :
    dget d w = v := by
  unfold dget
  have hsome : (d.find? (fun p => p.1 == w)).isSome := by
    rw [List.find?_isSome]
    exact ⟨(w, v), hmem, by simp⟩
  obtain ⟨q, hq⟩ := Option.isSome_iff_exists.mp hsome
  rw [hq]
  exact huniq q (List.mem_of_find?_eq_some hq) (by simpa using List.find?_some hq)

lemma dget_eq_zero {d : List (Word × Nat)} {w : Word}
    (h : ∀ p ∈ d, p.1 ≠ w) : dget d w = 0 := by
  unfold dget
  have hnone : d.find? (fun p => p.1 == w) = none := by
    rw [List.find?_eq_none]
    intro p hp
    simpa using h p hp
  rw [hnone]

lemma dmem_count_repeated_words (t : List Char) (w : Word) :
    dmem (count_repeated_words t) w = decide (2 ≤ wordCount t w) := by
  by_cases h : 2 ≤ wordCount t w
  · simp only [h, decide_eq_true_eq, decide_True]
    exact dmem_iff.mpr ⟨(w, wordCount t w), mem_count_repeated_words.mpr ⟨h, rfl⟩, rfl⟩
  · simp only [h, decide_False]
    rw [Bool.eq_false_iff]
    intro habs
    obtain ⟨p, hp, hp1⟩ := dmem_iff.mp habs
    obtain ⟨pw, pc⟩ := p
    have hpw : pw = w := hp1
    subst hpw
    exact h (mem_count_repeated_words.mp hp).1

lemma dget_count_repeated_words (t : List Char) (w : Word) :
    dget (count_repeated_words t) w =
      if 2 ≤ wordCount t w then wordCount t w else 0 := by
  by_cases h : 2 ≤ wordCount t w
  · rw [if_pos h]
    apply dget_eq_of_mem (mem_count_repeated_words.mpr ⟨h, rfl⟩)
    intro p hp hp1
    obtain ⟨pw, pc⟩ := p
    have hpw : pw = w := hp1
    subst hpw
    exact (mem_count_repeated_words.mp hp).2
  · rw [if_neg h]
    apply dget_eq_zero
    intro p hp hp1
    obtain ⟨pw, pc⟩ := p
    have hpw : pw = w := hp1
    subst hpw
    exact h (mem_count_repeated_words.mp hp).1

lemma mem_count_common_repeated_words {t1 t2 : List Char} {w : Word} {n : Nat} :
    (w, n) ∈ count_common_repeated_words t1 t2 ↔
      2 ≤ wordCount t1 w ∧ 2 ≤ wordCount t2 w ∧
        n = min (wordCount t1 w) (wordCount t2 w) := by
  simp only [count_common_repeated_words, List.mem_map, List.mem_filter, Prod.mk.injEq]
  constructor
  · rintro ⟨p, ⟨hp1, hp2⟩, hpw, hpn⟩
    obtain ⟨pw, pc⟩ := p
    have hpw' : pw = w := hpw
    subst hpw'
    have hc1 : 2 ≤ wordCount t1 pw := (mem_count_repeated_words.mp hp1).1
    have hc2 : 2 ≤ wordCount t2 pw := by
      have := (dmem_count_repeated_words t2 pw) ▸ hp2
      simpa using this
    refine ⟨hc1, hc2, ?_⟩
    rw [← hpn, dget_count_repeated_words, dget_count_repeated_words, if_pos hc1, if_pos hc2]
  · rintro ⟨hc1, hc2, rfl⟩
    refine ⟨(w, wordCount t1 w), ⟨mem_count_repeated_words.mpr ⟨hc1, rfl⟩, ?_⟩, rfl, ?_⟩
    · rw [dmem_count_repeated_words]
      simpa using hc2
    · rw [dget_count_repeated_words, dget_count_repeated_words, if_pos hc1, if_pos hc2]

lemma dmem_count_common_repeated_words (t1 t2 : List Char) (w : Word) :
    dmem (count_common_repeated_words t1 t2) w =
      decide (2 ≤ wordCount t1 w ∧ 2 ≤ wordCount t2 w) := by
  by_cases h : 2 ≤ wordCount t1 w ∧ 2 ≤ wordCount t2 w
  · simp only [h, decide_True]
    exact dmem_iff.mpr ⟨(w, min (wordCount t1 w) (wordCount t2 w)),
      mem_count_common_repeated_words.mpr ⟨h.1, h.2, rfl⟩, rfl⟩
  · simp only [h, decide_False]
    rw [Bool.eq_false_iff]
    intro habs
    obtain ⟨p, hp, hp1⟩ := dmem_iff.mp habs
    obtain ⟨pw, pc⟩ := p
    have hpw : pw = w := hp1
    subst hpw
    obtain ⟨h1, h2, -⟩ := mem_count_common_repeated_words.mp hp
    exact h ⟨h1, h2⟩

lemma dget_count_common_repeated_words (t1 t2 : List Char) (w : Word) :
    dget (count_common_repeated_words t1 t2) w =
      if 2 ≤ wordCount t1 w ∧ 2 ≤ wordCount t2 w then
        min (wordCount t1 w) (wordCount t2 w)
      else 0 := by
  by_cases h : 2 ≤ wordCount t1 w ∧ 2 ≤ wordCount t2 w
  · rw [if_pos h]
    apply dget_eq_of_mem (mem_count_common_repeated_words.mpr ⟨h.1, h.2, rfl⟩)
    intro p hp hp1
    obtain ⟨pw, pc⟩ := p
    have hpw : pw = w := hp1
    subst hpw
    exact (mem_count_common_repeated_words.mp hp).2.2
  · rw [if_neg h]
    apply dget_eq_zero
    intro p hp hp1
    obtain ⟨pw, pc⟩ := p
    have hpw : pw = w := hp1
    subst hpw
    obtain ⟨h1, h2, -⟩ := mem_count_common_repeated_words.mp hp
    exact h ⟨h1, h2⟩

lemma takeWhile_all {α : Type} {pred : α → Bool} :
    ∀ {l : List α}, (∀ x ∈ l, pred x = true) → l.takeWhile pred = l := by
  intro l
  induction l with
  | nil => intro _; rfl
  | cons a l ih =>
    intro h
    have ha := h a (List.mem_cons_self a l)
    have hl := ih (fun x hx => h x (List.mem_cons_of_mem a hx))
    simp [List.takeWhile_cons, ha, hl]

lemma takeWhile_append_of_all {α : Type} {pred : α → Bool} :
    ∀ {l l2 : List α}, (∀ x ∈ l, pred x = true) →
      (l ++ l2).takeWhile pred = l ++ l2.takeWhile pred := by
  intro l l2
  induction l with
  | nil => intro _; rfl
  | cons a l ih =>
    intro h
    have ha := h a (List.mem_cons_self a l)
    have hl := ih (fun x hx => h x (List.mem_cons_of_mem a hx))
    simp [List.takeWhile_cons, ha, hl]

lemma takeWhile_append_of_exists {α : Type} {pred : α → Bool} :
    ∀ {l l2 : List α}, (∃ x ∈ l, pred x = false) →
      (l ++ l2).takeWhile pred = l.takeWhile pred := by
  intro l l2
  induction l with
  | nil => rintro ⟨x, hx, -⟩; exact absurd hx (List.not_mem_nil x)
  | cons a l ih =>
    rintro ⟨x, hx, hpx⟩
    by_cases ha : pred a = true
    · have hxl : x ∈ l := by
        rcases List.mem_cons.mp hx with h1 | h1
        · exact absurd (h1 ▸ ha) (by rw [hpx]; exact Bool.false_ne_true)
        · exact h1
      have hl := ih ⟨x, hxl, hpx⟩
      simp [List.takeWhile_cons, ha, hl]
    · have ha' : pred a = false := Bool.eq_false_iff.mpr ha
      simp [List.takeWhile_cons, ha']

lemma splitOnChar_ne_nil (sep : Char) (p : List Char) : splitOnChar sep p ≠ [] := by
  cases p with
  | nil => simp [splitOnChar]
  | cons c cs =>
    simp only [splitOnChar]
    split
    · simp
    · split <;> simp

lemma splitOnChar_of_not_mem {sep : Char} :
    ∀ {p : List Char}, sep ∉ p → splitOnChar sep p = [p] := by
  intro p
  induction p with
  | nil => intro _; rfl
  | cons c cs ih =>
    intro h
    have h2 : sep ∉ cs := fun hm => h (List.mem_cons_of_mem _ hm)
    have h1 : (c == sep) = false := by
      rw [beq_eq_false_iff_ne]
      intro he
      exact h (he ▸ List.mem_cons_self c cs)
    simp [splitOnChar, h1, ih h2]

lemma two_le_length_splitOnChar_of_mem {sep : Char} :
    ∀ {p : List Char}, sep ∈ p → 2 ≤ (splitOnChar sep p).length := by
  intro p
  induction p with
  | nil => intro h; exact absurd h (List.not_mem_nil sep)
  | cons c cs ih =>
    intro h
    by_cases hc : (c == sep) = true
    · simp only [splitOnChar, hc, if_true, List.length_cons]
      have := List.length_pos.mpr (splitOnChar_ne_nil sep cs)
      omega
    · have hcs : sep ∈ cs := by
        rcases List.mem_cons.mp h with h1 | h1
        · exact absurd (by rw [h1] : (c == sep) = (sep == sep)) (by simp [hc])
        · exact h1
      simp only [splitOnChar, hc, if_false]
      have h2 := ih hcs
      cases hs : splitOnChar sep cs with
      | nil => exact absurd hs (splitOnChar_ne_nil sep cs)
      | cons w rest =>
        rw [hs] at h2
        simpa using h2

lemma getLastD_congr {α : Type} {l : List α} (h : l ≠ []) (d1 d2 : α) :
    l.getLastD d1 = l.getLastD d2 := by
  rw [List.getLastD_eq_getLast?, List.getLastD_eq_getLast?]
  obtain ⟨x, hx⟩ := Option.isSome_iff_exists.mp (List.getLast?_isSome.mpr h)
  rw [hx]
  rfl

lemma getLastD_splitOnChar (sep : Char) :
    ∀ p : List Char, (splitOnChar sep p).getLastD [] =
      (p.reverse.takeWhile (fun c => c != sep)).reverse := by
  intro p
  induction p with
  | nil => rfl
  | cons c cs ih =>
    by_cases hm : sep ∈ cs
    · have hrhs : ((c :: cs).reverse.takeWhile (fun x => x != sep)).reverse =
          (cs.reverse.takeWhile (fun x => x != sep)).reverse := by
        rw [List.reverse_cons,
          takeWhile_append_of_exists ⟨sep, List.mem_reverse.mpr hm, by simp⟩]
      rw [hrhs, ← ih]
      by_cases hc : (c == sep) = true
      · have hsplit : splitOnChar sep (c :: cs) = [] :: splitOnChar sep cs := by
          simp [splitOnChar, hc]
        rw [hsplit, List.getLastD_cons]
      · have hc' : (c == sep) = false := Bool.eq_false_iff.mpr hc
        cases hs : splitOnChar sep cs with
        | nil => exact absurd hs (splitOnChar_ne_nil sep cs)
        | cons w rest =>
          have hsplit : splitOnChar sep (c :: cs) = (c :: w) :: rest := by
            simp [splitOnChar, hc', hs]
          have hrest : rest ≠ [] := by
            have h2 := two_le_length_splitOnChar_of_mem hm
            rw [hs] at h2
            simp only [List.length_cons] at h2
            intro habs
            rw [habs] at h2
            simp at h2
          rw [hsplit, List.getLastD_cons, List.getLastD_cons]
          exact getLastD_congr hrest _ _
    · by_cases hc : (c == sep) = true
      · have hceq : c = sep := by simpa using hc
        subst hceq
        have hlhs : splitOnChar c (c :: cs) = [] :: [cs] := by
          simp [splitOnChar, splitOnChar_of_not_mem hm]
        rw [hlhs]
        have hval : (([] :: [cs] : List (List Char))).getLastD [] = cs := rfl
        rw [hval, List.reverse_cons]
        rw [takeWhile_append_of_all (fun x hx => by
          rw [bne_iff_ne]
          intro he
          exact hm (he ▸ List.mem_reverse.mp hx))]
        simp [List.takeWhile_cons]
      · have hmem : sep ∉ c :: cs := by
          intro hx
          rcases List.mem_cons.mp hx with h1 | h1
          · exact absurd (by rw [h1] : (c == sep) = (sep == sep)) (by simp [hc])
          · exact hm h1
        rw [splitOnChar_of_not_mem hmem]
        rw [takeWhile_all (fun x hx => by
          rw [bne_iff_ne]
          intro he
          exact hmem (he ▸ List.mem_reverse.mp hx))]
        rw [List.reverse_reverse]
        rfl

lemma fileExt_eq_specExt (p : List Char) : fileExt p = specExt p := by
  unfold fileExt specExt
  rw [getLastD_splitOnChar]

/-!
## Claim theorems
-/

/-- **C1.** `count_common_repeated_words t1 t2` contains exactly the words
whose occurrence count is ≥ 2 in `t1` and ≥ 2 in `t2` (the repeated-filter
is applied per document, before intersection), and maps each such word to
the minimum of its two counts; in particular a word occurring exactly once
in one document is never in the result. -/
theorem count_common_repeated_words_spec (t1 t2 : List Char) (w : Word) (n : Nat) :
    (w, n) ∈ count_common_repeated_words t1 t2 ↔
      2 ≤ wordCount t1 w ∧ 2 ≤ wordCount t2 w ∧
        n = min (wordCount t1 w) (wordCount t2 w) :=
  mem_count_common_repeated_words

/-- **C2.** `count_repeated_words` equals the spec pipeline (lowercase,
strip non-word non-whitespace characters, split on whitespace runs, tally,
keep counts ≥ 2), and on the spec's concrete examples:
`"Cat, cat CAT."` yields `{"cat": 3}` and `"a a b"` yields `{"a": 2}`. -/
theorem count_repeated_words_pipeline_spec :
    (∀ t : List Char, count_repeated_words t = specRepeatedPipeline t) ∧
    count_repeated_words "Cat, cat CAT.".data = [("cat".data, 3)] ∧
    count_repeated_words "a a b".data = [("a".data, 2)] :=
  ⟨fun _ => rfl, by decide, by decide⟩

/-- **C3.** Every key of `count_common_repeated_words t1 t2` is present
(with count ≥ 1) in both source RepeatedMaps, and the reported value never
exceeds either source count. -/
theorem count_common_repeated_words_invariant (t1 t2 : List Char) (w : Word) (n : Nat)
    (h : (w, n) ∈ count_common_repeated_words t1 t2) :
    dmem (count_repeated_words t1) w = true ∧
    dmem (count_repeated_words t2) w = true ∧
    1 ≤ dget (count_repeated_words t1) w ∧
    1 ≤ dget (count_repeated_words t2) w ∧
    n ≤ dget (count_repeated_words t1) w ∧
    n ≤ dget (count_repeated_words t2) w := by
  obtain ⟨h1, h2, rfl⟩ := mem_count_common_repeated_words.mp h
  rw [dmem_count_repeated_words, dmem_count_repeated_words,
    dget_count_repeated_words, dget_count_repeated_words, if_pos h1, if_pos h2]
  exact ⟨by simp [h1], by simp [h2], by omega, by omega,
    min_le_left _ _, min_le_right _ _⟩

/-- Witness for C3 at `t1 = "a a"`, `t2 = "a a a"`, entry `("a", 2)`. -/
theorem count_common_repeated_words_invariant_witness :
    ("a".data, 2) ∈ count_common_repeated_words "a a".data "a a a".data ∧
    (dmem (count_repeated_words "a a".data) "a".data = true ∧
     dmem (count_repeated_words "a a a".data) "a".data = true ∧
     1 ≤ dget (count_repeated_words "a a".data) "a".data ∧
     1 ≤ dget (count_repeated_words "a a a".data) "a".data ∧
     2 ≤ dget (count_repeated_words "a a".data) "a".data ∧
     2 ≤ dget (count_repeated_words "a a a".data) "a".data) :=
  ⟨by decide,
    count_common_repeated_words_invariant "a a".data "a a a".data "a".data 2 (by decide)⟩

/-- **C4.** Empty input is not an error: the repeated map of `""` is empty,
and the common map is empty whenever either input is empty, regardless of
the other text. -/
theorem empty_input_empty_output (t : List Char) :
    count_repeated_words ([] : List Char) = [] ∧
    count_common_repeated_words [] t = [] ∧
    count_common_repeated_words t [] = [] := by
  refine ⟨rfl, rfl, ?_⟩
  simp only [count_common_repeated_words]
  have hfil : (count_repeated_words t).filter
      (fun p => dmem (count_repeated_words ([] : List Char)) p.1) = [] := by
    rw [List.filter_eq_nil_iff]
    intro p _
    simp [dmem, count_repeated_words, counter, dedupFirst, splitWs, splitWsAux]
  rw [hfil]
  rfl

/-- **C5.** `extract_text` raises the unsupported-format error exactly when
the file extension — the substring after the last dot, lowercased, or the
whole name when there is no dot — is not `"pdf"`; on a `"pdf"` extension
(any letter case, since `fileExt` lowercases) it never raises that error
and defers to the PDF reader. -/
theorem extract_text_unsupported_spec
    (readPdf : List Char → Except (List Char) (List Char)) (path : List Char) :
    fileExt path = specExt path ∧
    (isUnsupportedError (extract_text readPdf path) = true ↔
      fileExt path ≠ "pdf".data) ∧
    (fileExt path = "pdf".data →
      extract_text readPdf path = Except.mapError ExtractErr.parseFail (readPdf path)) := by
  refine ⟨fileExt_eq_specExt path, ?_, ?_⟩
  · by_cases h : fileExt path = "pdf".data
    · simp only [extract_text, if_pos h]
      constructor
      · intro habs
        exfalso
        cases hr : readPdf path with
        | ok t => rw [hr] at habs; exact absurd habs (by simp [isUnsupportedError])
        | error m => rw [hr] at habs; exact absurd habs (by simp [isUnsupportedError])
      · intro habs; exact absurd h habs
    · simp only [extract_text, if_neg h]
      simp only [isUnsupportedError]
      exact ⟨fun _ => h, fun _ => trivial⟩
  · intro h
    simp only [extract_text, if_pos h]
    cases hr : readPdf path with
    | ok t => rfl
    | error m => rfl

/-- Witness for C5 at `path = "report.PDF"` (uppercase extension) with a
stub reader: no unsupported-format error, extraction proceeds. -/
theorem extract_text_unsupported_spec_witness :
    fileExt "report.PDF".data = "pdf".data ∧
    extract_text okStub "report.PDF".data =
      Except.mapError ExtractErr.parseFail (okStub "report.PDF".data) :=
  ⟨by decide,
    (extract_text_unsupported_spec okStub "report.PDF".data).2.2 (by decide)⟩

/-- **C6 counterexample.** When both uploads carry the same filename
`"a.txt"`, extraction raises (non-pdf extension) — yet the endpoint does
not return the normally shaped error response: the second `os.remove`
raises `FileNotFoundError` (the shared temp path was already deleted), the
exception escapes the handler, and no normal response is produced. -/
theorem count_common_words_shared_filename_crash :
    (analysisResult okStub (pathJoin UPLOAD_FOLDER "a.txt".data)
        (pathJoin UPLOAD_FOLDER "a.txt".data)).isRight = true ∧
    (count_common_words okStub "a.txt".data "a.txt".data ∅).1 = none :=
  ⟨by decide, by decide⟩

/-- **C6 amended.** For every request whose two uploaded filenames are
distinct, if extraction or analysis of either file raises an error then
the endpoint still returns a normally shaped response whose
`common_repeated_words` field is the string `"Error: <message>"` and whose
filename fields carry the two uploaded filenames; when the two filenames
coincide, the error is still caught but the second `os.remove` then raises
`FileNotFoundError`, which escapes the handler. -/
theorem count_common_words_error_response
    (readPdf : List Char → Except (List Char) (List Char))
    (name1 name2 : List Char) (fs : Finset (List Char)) (s : List Char)
    (hne : name1 ≠ name2)
    (hres : analysisResult readPdf (pathJoin UPLOAD_FOLDER name1)
      (pathJoin UPLOAD_FOLDER name2) = Sum.inr s) :
    (∃ m, s = "Error: ".data ++ m) ∧
    (count_common_words readPdf name1 name2 fs).1 =
      some ⟨name1, name2, Sum.inr s⟩ := by
  constructor
  · unfold analysisResult at hres
    split at hres
    · exact ⟨_, (Sum.inr.injEq _ _).mp hres |>.symm⟩
    · split at hres
      · exact ⟨_, (Sum.inr.injEq _ _).mp hres |>.symm⟩
      · exact absurd hres (by simp)
  · have hp : pathJoin UPLOAD_FOLDER name1 ≠ pathJoin UPLOAD_FOLDER name2 := by
      intro he
      apply hne
      have h2 := List.append_cancel_left he
      simpa using h2
    simp only [count_common_words]
    rw [if_pos (Finset.mem_insert_of_mem (Finset.mem_insert_self _ _))]
    rw [if_pos (Finset.mem_erase.mpr ⟨hp.symm, Finset.mem_insert_self _ _⟩)]
    rw [hres]

/-- Witness for C6-amended: filenames `"a.txt"` and `"b.txt"`, extraction
fails on the non-pdf extension, the endpoint returns the error string. -/
theorem count_common_words_error_response_witness :
    ("a.txt".data ≠ "b.txt".data ∧
      analysisResult okStub (pathJoin UPLOAD_FOLDER "a.txt".data)
        (pathJoin UPLOAD_FOLDER "b.txt".data) =
        Sum.inr "Error: Unsupported file type: txt. Only PDF files are supported.".data) ∧
    ((∃ m, ("Error: Unsupported file type: txt. Only PDF files are supported.".data : List Char) =
        "Error: ".data ++ m) ∧
     (count_common_words okStub "a.txt".data "b.txt".data ∅).1 =
       some ⟨"a.txt".data, "b.txt".data,
         Sum.inr "Error: Unsupported file type: txt. Only PDF files are supported.".data⟩) :=
  ⟨⟨by decide, by decide⟩,
    count_common_words_error_response okStub "a.txt".data "b.txt".data ∅ _
      (by decide) (by decide)⟩

/-- **C7.** On every exit path of the endpoint — success, caught analysis
error, or even the escaped `FileNotFoundError` of the shared-filename case
— both temp paths are gone from the upload folder when the request ends:
the final folder is exactly the initial one with the two paths erased, so
no leftover artifacts remain (an initially clean folder ends clean). -/
theorem count_common_words_temp_cleanup
    (readPdf : List Char → Except (List Char) (List Char))
    (name1 name2 : List Char) (fs : Finset (List Char)) :
    (count_common_words readPdf name1 name2 fs).2 =
      (fs.erase (pathJoin UPLOAD_FOLDER name1)).erase (pathJoin UPLOAD_FOLDER name2) ∧
    pathJoin UPLOAD_FOLDER name1 ∉ (count_common_words readPdf name1 name2 fs).2 ∧
    pathJoin UPLOAD_FOLDER name2 ∉ (count_common_words readPdf name1 name2 fs).2 := by
  have hmain : (count_common_words readPdf name1 name2 fs).2 =
      (fs.erase (pathJoin UPLOAD_FOLDER name1)).erase (pathJoin UPLOAD_FOLDER name2) := by
    by_cases hpp : pathJoin UPLOAD_FOLDER name1 = pathJoin UPLOAD_FOLDER name2
    · simp only [count_common_words, ← hpp, Finset.insert_idem]
      rw [if_pos (Finset.mem_insert_self _ _)]
      rw [Finset.erase_insert_eq_erase]
      rw [if_neg (Finset.not_mem_erase _ _)]
      rw [Finset.erase_idem]
    · simp only [count_common_words]
      rw [if_pos (Finset.mem_insert_of_mem (Finset.mem_insert_self _ _))]
      rw [Finset.erase_insert_of_ne (Ne.symm hpp)]
      rw [Finset.erase_insert_eq_erase]
      rw [if_pos (Finset.mem_insert_self _ _)]
      rw [Finset.erase_insert_eq_erase]
  refine ⟨hmain, ?_, ?_⟩
  · rw [hmain]
    intro h
    exact Finset.not_mem_erase _ _ (Finset.mem_of_mem_erase h)
  · rw [hmain]
    exact Finset.not_mem_erase _ _

/-- **C8.** The analysis functions are deterministic: they are Lean
functions of their text arguments alone (the embedding of the source,
which reads no global state and uses no randomness), so evaluating
`count_repeated_words` twice on the same text, or
`count_common_repeated_words` on equal inputs, yields equal results. -/
theorem analysis_deterministic (T t1 t2 s1 s2 : List Char)
    (h1 : t1 = s1) (h2 : t2 = s2) :
    count_repeated_words T = count_repeated_words T ∧
    count_common_repeated_words t1 t2 = count_common_repeated_words s1 s2 :=
  ⟨rfl, by rw [h1, h2]⟩

/-- Witness for C8 at concrete equal inputs. -/
theorem analysis_deterministic_witness :
    ("a a".data : List Char) = "a a".data ∧ ("b b".data : List Char) = "b b".data ∧
    (count_repeated_words "x x".data = count_repeated_words "x x".data ∧
     count_common_repeated_words "a a".data "b b".data =
       count_common_repeated_words "a a".data "b b".data) :=
  ⟨rfl, rfl, analysis_deterministic "x x".data "a a".data "b b".data "a a".data "b b".data rfl rfl⟩

/-- **C9.** `count_common_repeated_words` is commutative as a mapping:
swapping the two texts yields the same keys with the same values. -/
theorem count_common_repeated_words_comm (t1 t2 : List Char) (w : Word) :
    dmem (count_common_repeated_words t1 t2) w =
      dmem (count_common_repeated_words t2 t1) w ∧
    dget (count_common_repeated_words t1 t2) w =
      dget (count_common_repeated_words t2 t1) w := by
  constructor
  · rw [dmem_count_common_repeated_words, dmem_count_common_repeated_words]
    exact decide_eq_decide.mpr and_comm
  · rw [dget_count_common_repeated_words, dget_count_common_repeated_words]
    rw [min_comm]
    exact if_congr and_comm rfl rfl

/-- **C10.** Every value of `count_repeated_words` is ≥ 2, and hence so is
every value of `count_common_repeated_words` — strictly stronger than the
spec's stated "count ≥ 1" invariant. -/
theorem repeated_counts_ge_two (t t1 t2 : List Char) (w : Word) (n : Nat) :
    ((w, n) ∈ count_repeated_words t → 2 ≤ n) ∧
    ((w, n) ∈ count_common_repeated_words t1 t2 → 2 ≤ n) := by
  constructor
  · intro h
    obtain ⟨h2, rfl⟩ := mem_count_repeated_words.mp h
    exact h2
  · intro h
    obtain ⟨h1, h2, rfl⟩ := mem_count_common_repeated_words.mp h
    exact le_min h1 h2

/-- Witness for C10 at concrete entries of both maps. -/
theorem repeated_counts_ge_two_witness :
    (("a".data, 2) ∈ count_repeated_words "a a b".data ∧ 2 ≤ 2) ∧
    (("x".data, 3) ∈ count_common_repeated_words "x x x y y w".data
        "x x x x x z z v".data ∧ 2 ≤ 3) :=
  ⟨⟨by decide,
      (repeated_counts_ge_two "a a b".data [] [] "a".data 2).1 (by decide)⟩,
   ⟨by decide,
      (repeated_counts_ge_two [] "x x x y y w".data "x x x x x z z v".data
          "x".data 3).2 (by decide)⟩⟩

end Server
